import Mathlib

/-!
Shallow embedding of `src/omero/util/metadata_utils.py` (bulk-annotation
column-configuration resolution and row transformation), together with a
verification of the specification's claims about it.

Python dicts are modelled as association lists with unique keys
(`List (String × CfgVal)`); Python exceptions (`Exception`, `KeyError`,
`AssertionError`, `TypeError`) are modelled as the `Except String` monad.
The two regular expressions of the source are deterministic (their character
classes are disjoint from the literals that follow them), so they are embedded
as direct scanners.
-/

namespace MetadataUtils

/-- Values storable in a configuration mapping: the strings, booleans and
integers that `metadata_utils.py` puts into its config dicts. -/
inductive CfgVal where
  | str (s : String)
  | bool (b : Bool)
  | nat (n : Nat)
deriving DecidableEq, Inhabited

/-- A Python dict as an association list (keys unique in well-formed inputs). -/
abbrev Dict := List (String × CfgVal)

/-- Python dict lookup `d[k]` (first binding wins; mappings have unique keys). -/
def lookupKey : Dict → String → Option CfgVal
  | [], _ => none
  | p :: ps, k => if p.1 = k then some p.2 else lookupKey ps k

/-- Python dict assignment `d[k] = v`: replace the binding in place if the key
exists, otherwise append a new binding (insertion order preserved). -/
def setKey : Dict → String → CfgVal → Dict
  | [], k, v => [(k, v)]
  | p :: ps, k, v => if p.1 = k then (k, v) :: ps else p :: setKey ps k v

/-- Python `d.update(u)`: assign every binding of `u` into `d`, in order. -/
def updateDict : Dict → Dict → Dict
  | d, [] => d
  | d, p :: ps => updateDict (setKey d p.1 p.2) ps

/-- Python truthiness `bool(v)` of a configuration value. -/
def truthy : CfgVal → Bool
  | .str s => !s.isEmpty
  | .bool b => b
  | .nat n => n != 0

/-- Python `str(v)` for the modelled values (as used by `"__%s" % key`). -/
def pyStr : CfgVal → String
  | .str s => s
  | .bool b => if b then "True" else "False"
  | .nat n => toString n

/-- Python regex class `\s` on the ASCII range: space, tab, newline, carriage
return, vertical tab, form feed. -/
def isPySpace (c : Char) : Bool :=
  c == ' ' || c == '\t' || c == '\n' || c == '\r' || c == Char.ofNat 11 || c == Char.ofNat 12

/-- Python regex class `\w` on the ASCII range: letters, digits, underscore. -/
def isPyWord (c : Char) : Bool := c.isAlphanum || c == '_'

/-- The character `\x7b` (opening curly brace). -/
def lbrace : Char := Char.ofNat 123

/-- The character `\x7d` (closing curly brace). -/
def rbrace : Char := Char.ofNat 125

/-- Match a literal character sequence at the head of the input; on success
return the remaining input. -/
def dropLit : List Char → List Char → Option (List Char)
  | [], s => some s
  | _ :: _, [] => none
  | p :: ps, c :: cs => if c == p then dropLit ps cs else none

/-- The literal word `value` of the placeholder pattern. -/
def valueWord : List Char := ['v', 'a', 'l', 'u', 'e']

/-- Match the placeholder regex `\{\{\s*value\s*\}\}` at the head of the input,
returning the remainder on success.  The greedy `\s*` runs are deterministic
because whitespace is disjoint from the `v` and the brace that follow them. -/
def matchValuePat (s : List Char) : Option (List Char) :=
  match dropLit [lbrace, lbrace] s with
  | none => none
  | some s1 =>
    match dropLit valueWord (s1.dropWhile isPySpace) with
    | none => none
    | some s3 => dropLit [rbrace, rbrace] (s3.dropWhile isPySpace)

/-- Scan of `re.sub("\{\{\s*value\s*\}\}", rep, s)`: left to right, replace
every leftmost non-overlapping match.  `fuel` bounds the recursion; every step
consumes at least one input character, so `fuel = s.length` always suffices and
the fuel-exhaustion branch is unreachable from the wrapper below. -/
def subValueFuel (rep : List Char) : Nat → List Char → List Char
  | _, [] => []
  | 0, s => s
  | fuel + 1, c :: cs =>
    match matchValuePat (c :: cs) with
    | some rest => rep ++ subValueFuel rep fuel rest
    | none => c :: subValueFuel rep fuel cs

/-- Python `re.sub("\{\{\s*value\s*\}\}", rep, s)` (the replacement is inserted
literally; the source never uses escape sequences in the replacement). -/
def subValueAll (rep s : String) : String :=
  String.mk (subValueFuel rep.data s.data.length s.data)

/-- Modelled from the spec: the variant that strips only the FIRST occurrence of
the placeholder, which is what the claim's words "strips exactly one occurrence
(first/any single match)" describe.  Used only to compare the claim against the
code's strip-all behaviour. -/
def subValueOnceList (rep : List Char) : List Char → List Char
  | [] => []
  | c :: cs =>
    match matchValuePat (c :: cs) with
    | some rest => rep ++ rest
    | none => c :: subValueOnceList rep cs

/-- String wrapper for `subValueOnceList`. -/
def subValueOnce (rep s : String) : String := String.mk (subValueOnceList rep.data s.data)

/-- Match the leftover-placeholder regex `\{\{[\s\w]*}\}` at the head of the
input.  The greedy class run is deterministic because a brace is neither a
space nor a word character. -/
def matchLeftoverPat (s : List Char) : Option (List Char) :=
  match dropLit [lbrace, lbrace] s with
  | none => none
  | some s1 => dropLit [rbrace, rbrace] (s1.dropWhile (fun c => isPySpace c || isPyWord c))

/-- Python `re.search("\{\{[\s\w]*}\}", s)` viewed as a Boolean: does the
pattern match starting at any position of `s`? -/
def searchLeftoverList : List Char → Bool
  | [] => false
  | c :: cs => (matchLeftoverPat (c :: cs)).isSome || searchLeftoverList cs

/-- String wrapper for `searchLeftoverList`. -/
def searchLeftover (s : String) : Bool := searchLeftoverList s.data

/-- Python `str.strip()`: drop leading and trailing whitespace. -/
def pyStrip (s : String) : String :=
  String.mk (((s.data.dropWhile isPySpace).reverse.dropWhile isPySpace).reverse)

/-- Core of Python `str.split(sep)` for a non-empty separator `c0 :: sep`:
leftmost non-overlapping separator occurrences delimit the pieces.  Every step
consumes at least one character, so `fuel = s.length` always suffices. -/
def splitFuel (c0 : Char) (sep : List Char) : Nat → List Char → List Char → List (List Char)
  | _, acc, [] => [acc.reverse]
  | 0, acc, s => [acc.reverse ++ s]
  | fuel + 1, acc, c :: cs =>
    match dropLit (c0 :: sep) (c :: cs) with
    | some rest => acc.reverse :: splitFuel c0 sep fuel [] rest
    | none => splitFuel c0 sep fuel (c :: acc) cs

/-- Python `value.split(sep)`; the source only calls it with a truthy (hence
non-empty) separator string. -/
def pySplit (s sep : String) : List String :=
  match sep.data with
  | [] => [s]
  | c0 :: rest => (splitFuel c0 rest s.data.length [] s.data).map String.mk

/-- The hard-coded base defaults of `BulkAnnotationConfiguration.get_default_cfg`. -/
def default_defaults : Dict :=
  [("clientvalue", CfgVal.str "\x7b\x7b value \x7d\x7d"),
   ("includeclient", CfgVal.bool true),
   ("include", CfgVal.bool true),
   ("split", CfgVal.bool false),
   ("type", CfgVal.str "string"),
   ("visible", CfgVal.bool true)]

/-- The six recognised default-configuration option names. -/
def defaultKeys : List String :=
  ["clientvalue", "includeclient", "include", "split", "type", "visible"]

/-- `BulkAnnotationConfiguration.get_default_cfg`: reject unknown keys, then
overlay the supplied values on the base defaults. -/
def get_default_cfg (cfg : Dict) : Except String Dict :=
  if cfg.any (fun p => !defaultKeys.contains p.1) then
    Except.error "Invalid key(s) in column defaults"
  else
    Except.ok (updateDict default_defaults cfg)

/-- The optional keys of `BulkAnnotationConfiguration.validate_column_config`. -/
def optionalKeys : List String :=
  ["clientname", "clientvalue", "includeclient", "position", "include", "split", "type", "visible"]

/-- The template-safety check of `validate_column_config`: strip ALL occurrences
of the `\{\{\s*value\s*\}\}` placeholder (Python `re.sub` with no count), then
reject if any `\{\{[\s\w]*}\}` token remains. -/
def clientvalueRejected (cv : String) : Bool := searchLeftover (subValueAll "" cv)

/-- `BulkAnnotationConfiguration.validate_column_config`: require a truthy
`name`, reject unknown keys, then run the template-safety check when a
`clientvalue` is present (a non-string `clientvalue` makes `re.sub` raise). -/
def validate_column_config (cfg : Dict) : Except String Unit :=
  match lookupKey cfg "name" with
  | none => Except.error "Required key(s) missing from column configuration: name"
  | some nameVal =>
    if !truthy nameVal then Except.error "Empty name in column configuration"
    else if cfg.any (fun p => !(optionalKeys.contains p.1 || p.1 == "name")) then
      Except.error "Invalid key(s) in column configuration"
    else
      match lookupKey cfg "clientvalue" with
      | none => Except.ok ()
      | some (CfgVal.str cv) =>
        if clientvalueRejected cv then
          Except.error "clientvalue template parameter not found"
        else Except.ok ()
      | some _ => Except.error "TypeError: clientvalue is not a string"

/-- `BulkAnnotationConfiguration.get_column_config`: validate, then overlay the
column configuration on the defaults. -/
def get_column_config (defaults : Dict) (cfg : Dict) : Except String Dict :=
  match validate_column_config cfg with
  | Except.error e => Except.error e
  | Except.ok _ => Except.ok (updateDict defaults cfg)

/-- Effectful map realising a Python list comprehension over fallible steps:
the first raised exception propagates. -/
def mapE {α β : Type} (f : α → Except String β) : List α → Except String (List β)
  | [] => Except.ok []
  | a :: as =>
    match f a with
    | Except.error e => Except.error e
    | Except.ok b =>
      match mapE f as with
      | Except.error e => Except.error e
      | Except.ok bs => Except.ok (b :: bs)

/-- Python dict-insert for the header index map. -/
def setIdx : List (String × Nat) → String → Nat → List (String × Nat)
  | [], k, v => [(k, v)]
  | p :: ps, k, v => if p.1 = k then (k, v) :: ps else p :: setIdx ps k v

/-- Lookup in the header index map. -/
def lookupIdx : List (String × Nat) → String → Option Nat
  | [], _ => none
  | p :: ps, k => if p.1 = k then some p.2 else lookupIdx ps k

/-- `dict((b, a) for (a, b) in enumerate(headers))` built left to right from
position `i`: a later duplicate header overwrites the earlier index. -/
def buildHmap (i : Nat) (hs : List String) (d : List (String × Nat)) : List (String × Nat) :=
  match hs with
  | [] => d
  | h :: rest => buildHmap (i + 1) rest (setIdx d h i)

/-- `self.headerindexmap` of `KeyValueListTransformer.__init__`. -/
def headerIndexMapOf (headers : List String) : List (String × Nat) := buildHmap 0 headers []

/-- The state of a successfully constructed `KeyValueListTransformer`. -/
structure KeyValueListTransformer where
  defaults : Dict
  column_cfgs : List Dict
  headerindexmap : List (String × Nat)
  output_configs : List (Dict × Nat)
deriving DecidableEq, Inhabited

/-- Pair a resolved column config with the header index of its `name`
(`self.headerindexmap[cfg["name"]]`); a name absent from the headers (or a
non-string name, which cannot equal any string key) raises `KeyError`. -/
def pairWithIndex (hmap : List (String × Nat)) (cfg : Dict) : Except String (Dict × Nat) :=
  match lookupKey cfg "name" with
  | some (CfgVal.str n) =>
    match lookupIdx hmap n with
    | some i => Except.ok (cfg, i)
    | none => Except.error "KeyError: header"
  | _ => Except.error "KeyError: header"

/-- `KeyValueListTransformer.__init__`: resolve the defaults, validate and
resolve every column config, build the header index map, and pair each resolved
config with its header index.  Any failure aborts construction. -/
def mkTransformer (headers : List String) (default_cfg : Dict) (column_cfgs : List Dict) :
    Except String KeyValueListTransformer :=
  match get_default_cfg default_cfg with
  | Except.error e => Except.error e
  | Except.ok defaults =>
    match mapE (get_column_config defaults) column_cfgs with
    | Except.error e => Except.error e
    | Except.ok ccfgs =>
      match mapE (pairWithIndex (headerIndexMapOf headers)) ccfgs with
      | Except.error e => Except.error e
      | Except.ok ocfgs =>
        Except.ok ⟨defaults, ccfgs, headerIndexMapOf headers, ocfgs⟩

/-- `KeyValueListTransformer.transform1`: compute the output key (`name`,
overridden by `clientname`, prefixed with `__` when `visible` is falsy), split
the value when `split` is truthy, then substitute each piece into the
`clientvalue` template when present. -/
def transform1 (value : String) (cfg : Dict) : Except String (String × List String) :=
  match lookupKey cfg "name" with
  | none => Except.error "KeyError: name"
  | some nameVal =>
    let key0 := pyStr nameVal
    let key1 :=
      match lookupKey cfg "clientname" with
      | some v => pyStr v
      | none => key0
    let key :=
      match lookupKey cfg "visible" with
      | some v => if truthy v then key1 else "__" ++ key1
      | none => key1
    let valuesE : Except String (List String) :=
      match lookupKey cfg "split" with
      | some v =>
        if truthy v then
          match v with
          | CfgVal.str sep => Except.ok ((pySplit value sep).map pyStrip)
          | _ => Except.error "TypeError: split is not a string"
        else Except.ok [value]
      | none => Except.ok [value]
    match valuesE with
    | Except.error e => Except.error e
    | Except.ok values =>
      match lookupKey cfg "clientvalue" with
      | none => Except.ok (key, values)
      | some (CfgVal.str cv) => Except.ok (key, values.map (fun v => subValueAll v cv))
      | some _ => Except.error "TypeError: clientvalue is not a string"

/-- Fetch `rowvalues[i]` and apply `transform1` (an out-of-range index raises
`IndexError`). -/
def cellTransform (rowvalues : List String) (ci : Dict × Nat) :
    Except String (String × List String) :=
  match rowvalues.get? ci.2 with
  | some v => transform1 v ci.1
  | none => Except.error "IndexError"

/-- `KeyValueListTransformer.transform`: assert the row length against the
header index map, then transform the cell of each output config in order. -/
def KeyValueListTransformer.transform (t : KeyValueListTransformer)
    (rowvalues : List String) : Except String (List (String × List String)) :=
  if rowvalues.length = t.headerindexmap.length then
    mapE (cellTransform rowvalues) t.output_configs
  else Except.error "AssertionError"

/-- One step of `KeyValueListPassThrough.transform_gen`: the row-length
assertion, then `zip(self.headers, rowvals)`. -/
def passThroughRow (headers rowvals : List String) : Except String (List (String × String)) :=
  if rowvals.length = headers.length then Except.ok (headers.zip rowvals)
  else Except.error "AssertionError"

/-- `KeyValueListPassThrough.transform_gen` over a fully materialised list of
rows (the Python generator is forced). -/
def transform_gen (headers : List String) (values : List (List String)) :
    Except String (List (List (String × String))) :=
  mapE (passThroughRow headers) values

/-- End-to-end run: construct a transformer and transform one row (what
`print_kvs` does per row). -/
def runTransform (headers : List String) (default_cfg : Dict) (column_cfgs : List Dict)
    (row : List String) : Except String (List (String × List String)) :=
  match mkTransformer headers default_cfg column_cfgs with
  | Except.ok t => t.transform row
  | Except.error e => Except.error e

/-- The key list of a configuration dictionary. -/
def keysOf (d : Dict) : List String := d.map Prod.fst

/-- Index of the LAST occurrence of `k` in `hs`, counting from offset `i`
(the reference semantics of the Python dict comprehension over `enumerate`). -/
def lastIdxFrom (i : Nat) (hs : List String) (k : String) : Option Nat :=
  match hs with
  | [] => none
  | h :: rest =>
    match lastIdxFrom (i + 1) rest k with
    | some j => some j
    | none => if h = k then some i else none

/-- A concrete transformer over headers `["A"]` with one trivial column config,
used to instantiate the general theorems below. -/
def egT : KeyValueListTransformer :=
  ((mkTransformer ["A"] [] [[("name", CfgVal.str "A")]]).toOption).getD default

/-- A concrete transformer over the duplicated headers `["A", "A"]`. -/
def egT2 : KeyValueListTransformer :=
  ((mkTransformer ["A", "A"] [] [[("name", CfgVal.str "A")]]).toOption).getD default

/-! ### Association-list laws for the configuration dictionaries -/

theorem lookupKey_setKey (k : String) (v : CfgVal) (k2 : String) :
    ∀ d : Dict, lookupKey (setKey d k v) k2 = if k2 = k then some v else lookupKey d k2 := by
  intro d
  induction d with
  | nil =>
    by_cases h : k2 = k
    · subst h; simp [setKey, lookupKey]
    · have h2 : ¬ k = k2 := fun hh => h hh.symm
      simp [setKey, lookupKey, h, h2]
  | cons p ps ih =>
    obtain ⟨a, b⟩ := p
    by_cases h : a = k
    · subst h
      by_cases h2 : k2 = a
      · subst h2; simp [setKey, lookupKey]
      · have h3 : ¬ a = k2 := fun hh => h2 hh.symm
        simp [setKey, lookupKey, h2, h3]
    · by_cases h2 : a = k2
      · subst h2
        have h3 : ¬ a = k := h
        have h4 : ¬ k = a := fun hh => h3 hh.symm
        simp [setKey, lookupKey, h3, h4]
      · simp [setKey, lookupKey, h, h2, ih]

theorem lookupKey_eq_none_iff (k : String) : ∀ d : Dict, lookupKey d k = none ↔ k ∉ keysOf d := by
  intro d
  induction d with
  | nil => simp [lookupKey, keysOf]
  | cons p ps ih =>
    obtain ⟨a, b⟩ := p
    simp only [lookupKey, keysOf, List.map_cons, List.mem_cons]
    simp only [keysOf] at ih
    by_cases h : a = k
    · subst h; simp
    · have h2 : ¬ k = a := fun hh => h hh.symm
      rw [if_neg h, ih]
      tauto

theorem mem_keysOf_setKey (k : String) (v : CfgVal) (a : String) :
    ∀ d : Dict, a ∈ keysOf (setKey d k v) ↔ a ∈ keysOf d ∨ a = k := by
  intro d
  induction d with
  | nil => simp [setKey, keysOf]
  | cons p ps ih =>
    obtain ⟨a1, b1⟩ := p
    simp only [keysOf] at ih
    by_cases h : a1 = k
    · subst h
      simp [setKey, keysOf]
      tauto
    · simp only [setKey, if_neg h, keysOf, List.map_cons, List.mem_cons]
      rw [ih]
      tauto

theorem lookupKey_updateDict_of_none (k : String) :
    ∀ (u d : Dict), lookupKey u k = none →
      lookupKey (updateDict d u) k = lookupKey d k := by
  intro u
  induction u with
  | nil => intro d _; rfl
  | cons p ps ih =>
    obtain ⟨a, b⟩ := p
    intro d hu
    rw [lookupKey] at hu
    by_cases h : a = k
    · simp [h] at hu
    · rw [if_neg h] at hu
      rw [updateDict, ih _ hu, lookupKey_setKey]
      have h2 : ¬ k = a := fun hh => h hh.symm
      rw [if_neg h2]

theorem lookupKey_updateDict_of_some (k : String) (v : CfgVal) :
    ∀ (u d : Dict), (keysOf u).Nodup → lookupKey u k = some v →
      lookupKey (updateDict d u) k = some v := by
  intro u
  induction u with
  | nil => intro d _ hu; exact absurd hu (by simp [lookupKey])
  | cons p ps ih =>
    obtain ⟨a, b⟩ := p
    intro d hnd hu
    rw [keysOf, List.map_cons, List.nodup_cons] at hnd
    rw [lookupKey] at hu
    by_cases h : a = k
    · rw [if_pos h] at hu
      have hnone : lookupKey ps k = none := by
        rw [lookupKey_eq_none_iff]
        intro hmem
        exact hnd.1 (h ▸ hmem)
      rw [updateDict, lookupKey_updateDict_of_none k ps _ hnone, lookupKey_setKey,
        if_pos h.symm]
      exact congrArg some (Option.some.inj hu)
    · rw [if_neg h] at hu
      rw [updateDict]
      exact ih (setKey d a b) hnd.2 hu

theorem mem_keysOf_updateDict (a : String) :
    ∀ (u d : Dict), a ∈ keysOf (updateDict d u) ↔ a ∈ keysOf d ∨ a ∈ keysOf u := by
  intro u
  induction u with
  | nil => simp [updateDict, keysOf]
  | cons p ps ih =>
    obtain ⟨a1, b1⟩ := p
    intro d
    rw [updateDict, ih, mem_keysOf_setKey]
    simp only [keysOf, List.map_cons, List.mem_cons]
    tauto

/-! ### Laws of the header index map -/

theorem lookupIdx_setIdx (k : String) (v : Nat) (k2 : String) :
    ∀ d : List (String × Nat),
      lookupIdx (setIdx d k v) k2 = if k2 = k then some v else lookupIdx d k2 := by
  intro d
  induction d with
  | nil =>
    by_cases h : k2 = k
    · subst h; simp [setIdx, lookupIdx]
    · have h2 : ¬ k = k2 := fun hh => h hh.symm
      simp [setIdx, lookupIdx, h, h2]
  | cons p ps ih =>
    obtain ⟨a, b⟩ := p
    by_cases h : a = k
    · subst h
      by_cases h2 : k2 = a
      · subst h2; simp [setIdx, lookupIdx]
      · have h3 : ¬ a = k2 := fun hh => h2 hh.symm
        simp [setIdx, lookupIdx, h2, h3]
    · by_cases h2 : a = k2
      · subst h2
        have h4 : ¬ k = a := fun hh => h hh.symm
        simp [setIdx, lookupIdx, h, h4]
      · simp [setIdx, lookupIdx, h, h2, ih]

theorem lookupIdx_eq_none_iff (k : String) :
    ∀ d : List (String × Nat), lookupIdx d k = none ↔ k ∉ d.map Prod.fst := by
  intro d
  induction d with
  | nil => simp [lookupIdx]
  | cons p ps ih =>
    obtain ⟨a, b⟩ := p
    simp only [lookupIdx, List.map_cons, List.mem_cons]
    by_cases h : a = k
    · subst h; simp
    · have h2 : ¬ k = a := fun hh => h hh.symm
      rw [if_neg h, ih]
      tauto

theorem mem_fst_setIdx (k : String) (v : Nat) (a : String) :
    ∀ d : List (String × Nat),
      a ∈ (setIdx d k v).map Prod.fst ↔ a ∈ d.map Prod.fst ∨ a = k := by
  intro d
  induction d with
  | nil => simp [setIdx]
  | cons p ps ih =>
    obtain ⟨a1, b1⟩ := p
    by_cases h : a1 = k
    · subst h
      simp [setIdx]
      tauto
    · simp only [setIdx, if_neg h, List.map_cons, List.mem_cons]
      rw [ih]
      tauto

theorem setIdx_of_not_mem (k : String) (v : Nat) :
    ∀ d : List (String × Nat), k ∉ d.map Prod.fst → setIdx d k v = d ++ [(k, v)] := by
  intro d
  induction d with
  | nil => intro _; rfl
  | cons p ps ih =>
    obtain ⟨a, b⟩ := p
    intro hmem
    simp only [List.map_cons, List.mem_cons] at hmem
    push_neg at hmem
    have h : ¬ a = k := fun hh => hmem.1 hh.symm
    rw [setIdx, if_neg h, ih hmem.2]
    rfl

theorem fst_setIdx_of_mem (k : String) (v : Nat) :
    ∀ d : List (String × Nat), k ∈ d.map Prod.fst →
      (setIdx d k v).map Prod.fst = d.map Prod.fst := by
  intro d
  induction d with
  | nil => intro h; simp at h
  | cons p ps ih =>
    obtain ⟨a, b⟩ := p
    intro hmem
    by_cases h : a = k
    · subst h; simp [setIdx]
    · have h2 : ¬ k = a := fun hh => h hh.symm
      simp only [List.map_cons, List.mem_cons] at hmem
      rcases hmem with h3 | h3
      · exact absurd h3 h2
      · rw [setIdx, if_neg h]
        simp only [List.map_cons, ih h3]

theorem lastIdxFrom_eq_none_iff (k : String) :
    ∀ (hs : List String) (i : Nat), lastIdxFrom i hs k = none ↔ k ∉ hs := by
  intro hs
  induction hs with
  | nil => simp [lastIdxFrom]
  | cons h rest ih =>
    intro i
    rw [lastIdxFrom]
    cases hr : lastIdxFrom (i + 1) rest k with
    | some j =>
      show some j = none ↔ k ∉ h :: rest
      have hk : k ∈ rest := by
        by_contra hnm
        rw [(ih (i + 1)).mpr hnm] at hr
        exact Option.noConfusion hr
      constructor
      · intro hc; exact Option.noConfusion hc
      · intro hc; exact (hc (List.mem_cons_of_mem _ hk)).elim
    | none =>
      have hnm : k ∉ rest := (ih (i + 1)).mp hr
      by_cases hk : h = k
      · subst hk
        simp
      · have hk2 : ¬ k = h := fun hh => hk hh.symm
        simp [hk, hk2, hnm]

theorem buildHmap_lookup_of_none (k : String) :
    ∀ (hs : List String) (i : Nat) (d : List (String × Nat)),
      lastIdxFrom i hs k = none →
      lookupIdx (buildHmap i hs d) k = lookupIdx d k := by
  intro hs
  induction hs with
  | nil => intro i d _; rfl
  | cons h rest ih =>
    intro i d hnone
    rw [lastIdxFrom] at hnone
    cases hr : lastIdxFrom (i + 1) rest k with
    | some j => rw [hr] at hnone; exact Option.noConfusion hnone
    | none =>
      rw [hr] at hnone
      have hk : ¬ h = k := by
        by_contra hk
        rw [if_pos hk] at hnone
        exact Option.noConfusion hnone
      rw [buildHmap, ih _ _ hr, lookupIdx_setIdx]
      have hk2 : ¬ k = h := fun hh => hk hh.symm
      rw [if_neg hk2]

theorem buildHmap_lookup_of_some (k : String) (j : Nat) :
    ∀ (hs : List String) (i : Nat) (d : List (String × Nat)),
      lastIdxFrom i hs k = some j →
      lookupIdx (buildHmap i hs d) k = some j := by
  intro hs
  induction hs with
  | nil => intro i d hsome; exact Option.noConfusion hsome
  | cons h rest ih =>
    intro i d hsome
    rw [lastIdxFrom] at hsome
    cases hr : lastIdxFrom (i + 1) rest k with
    | some j2 =>
      rw [hr] at hsome
      cases hsome
      rw [buildHmap]
      exact ih _ _ hr
    | none =>
      rw [hr] at hsome
      have hk : h = k := by
        by_contra hk
        rw [if_neg hk] at hsome
        exact Option.noConfusion hsome
      rw [if_pos hk] at hsome
      cases hsome
      rw [buildHmap, buildHmap_lookup_of_none k rest _ _ hr, lookupIdx_setIdx, if_pos hk.symm]

theorem lastIdxFrom_spec (k : String) (j : Nat) :
    ∀ (hs : List String) (i : Nat), lastIdxFrom i hs k = some j →
      ∃ m, j = i + m ∧ hs.get? m = some k ∧ ∀ m2, m < m2 → hs.get? m2 ≠ some k := by
  intro hs
  induction hs with
  | nil => intro i hsome; exact Option.noConfusion hsome
  | cons h rest ih =>
    intro i hsome
    rw [lastIdxFrom] at hsome
    cases hr : lastIdxFrom (i + 1) rest k with
    | some j2 =>
      rw [hr] at hsome
      cases hsome
      obtain ⟨m, hm, hget, hlast⟩ := ih (i + 1) hr
      refine ⟨m + 1, by omega, by simpa using hget, ?_⟩
      intro m2 hm2
      cases m2 with
      | zero => omega
      | succ m2 =>
        rw [List.get?_cons_succ]
        exact hlast m2 (by omega)
    | none =>
      rw [hr] at hsome
      have hk : h = k := by
        by_contra hk
        rw [if_neg hk] at hsome
        exact Option.noConfusion hsome
      rw [if_pos hk] at hsome
      cases hsome
      have hnm : k ∉ rest := (lastIdxFrom_eq_none_iff k rest (j + 1)).mp hr
      refine ⟨0, by omega, by simp [hk], ?_⟩
      intro m2 hm2
      cases m2 with
      | zero => omega
      | succ m2 =>
        rw [List.get?_cons_succ]
        intro hc
        exact hnm (List.get?_mem hc)

theorem mem_fst_buildHmap (a : String) :
    ∀ (hs : List String) (i : Nat) (d : List (String × Nat)),
      a ∈ (buildHmap i hs d).map Prod.fst ↔ a ∈ d.map Prod.fst ∨ a ∈ hs := by
  intro hs
  induction hs with
  | nil => intro i d; simp [buildHmap]
  | cons h rest ih =>
    intro i d
    rw [buildHmap, ih, mem_fst_setIdx]
    simp only [List.mem_cons]
    tauto

theorem nodup_fst_buildHmap :
    ∀ (hs : List String) (i : Nat) (d : List (String × Nat)),
      (d.map Prod.fst).Nodup → ((buildHmap i hs d).map Prod.fst).Nodup := by
  intro hs
  induction hs with
  | nil => intro i d hd; exact hd
  | cons h rest ih =>
    intro i d hd
    rw [buildHmap]
    apply ih
    by_cases hmem : h ∈ d.map Prod.fst
    · rw [fst_setIdx_of_mem _ _ _ hmem]; exact hd
    · rw [setIdx_of_not_mem _ _ _ hmem]
      rw [List.map_append, List.nodup_append]
      refine ⟨hd, by simp, ?_⟩
      intro x hx hx2
      have hxh : x = h := by simpa using hx2
      exact hmem (hxh ▸ hx)

/-- The keys of the header index map are exactly the distinct headers. -/
theorem mem_fst_headerIndexMapOf (a : String) (headers : List String) :
    a ∈ (headerIndexMapOf headers).map Prod.fst ↔ a ∈ headers := by
  rw [headerIndexMapOf, mem_fst_buildHmap]
  simp

theorem nodup_fst_headerIndexMapOf (headers : List String) :
    ((headerIndexMapOf headers).map Prod.fst).Nodup := by
  rw [headerIndexMapOf]
  exact nodup_fst_buildHmap headers 0 [] (by simp)

/-- The header index map has one entry per distinct header. -/
theorem length_headerIndexMapOf (headers : List String) :
    (headerIndexMapOf headers).length = headers.dedup.length := by
  have h1 : (headerIndexMapOf headers).length
      = ((headerIndexMapOf headers).map Prod.fst).length := (List.length_map _ _).symm
  have h2 : ((headerIndexMapOf headers).map Prod.fst).toFinset = headers.toFinset := by
    apply Finset.ext
    intro x
    rw [List.mem_toFinset, List.mem_toFinset, mem_fst_headerIndexMapOf]
  have h3 : ((headerIndexMapOf headers).map Prod.fst).length
      = ((headerIndexMapOf headers).map Prod.fst).toFinset.card :=
    (List.toFinset_card_of_nodup (nodup_fst_headerIndexMapOf headers)).symm
  rw [h1, h3, h2, List.card_toFinset]

theorem dedup_length_lt_of_not_nodup {l : List String} (h : ¬ l.Nodup) :
    l.dedup.length < l.length := by
  have hsub := List.dedup_sublist l
  rcases Nat.lt_or_ge l.dedup.length l.length with hlt | hge
  · exact hlt
  · have heq : l.dedup.length = l.length := Nat.le_antisymm hsub.length_le hge
    have : l.dedup = l := hsub.eq_of_length heq
    exact absurd (this ▸ List.nodup_dedup l) h

/-! ### Laws of the effectful map -/

theorem mapE_ok_forall2 {α β : Type} {f : α → Except String β} :
    ∀ {xs : List α} {ys : List β}, mapE f xs = Except.ok ys →
      List.Forall₂ (fun x y => f x = Except.ok y) xs ys := by
  intro xs
  induction xs with
  | nil =>
    intro ys h
    rw [mapE] at h
    cases h
    exact List.Forall₂.nil
  | cons a as ih =>
    intro ys h
    rw [mapE] at h
    cases hfa : f a with
    | error e => rw [hfa] at h; exact Except.noConfusion h
    | ok b =>
      rw [hfa] at h
      cases hrest : mapE f as with
      | error e => rw [hrest] at h; exact Except.noConfusion h
      | ok bs =>
        rw [hrest] at h
        cases h
        exact List.Forall₂.cons hfa (ih hrest)

theorem forall2_mem_left {α β : Type} {R : α → β → Prop} :
    ∀ {xs : List α} {ys : List β}, List.Forall₂ R xs ys → ∀ {x}, x ∈ xs →
      ∃ y, y ∈ ys ∧ R x y := by
  intro xs ys h
  induction h with
  | nil => intro x hx; simp at hx
  | cons h1 _ ih =>
    intro x hx
    rcases List.mem_cons.mp hx with rfl | hx2
    · exact ⟨_, List.mem_cons_self _ _, h1⟩
    · obtain ⟨y, hy, hr⟩ := ih hx2
      exact ⟨y, List.mem_cons_of_mem _ hy, hr⟩

theorem forall2_mem_right {α β : Type} {R : α → β → Prop} :
    ∀ {xs : List α} {ys : List β}, List.Forall₂ R xs ys → ∀ {y}, y ∈ ys →
      ∃ x, x ∈ xs ∧ R x y := by
  intro xs ys h
  induction h with
  | nil => intro y hy; simp at hy
  | cons h1 _ ih =>
    intro y hy
    rcases List.mem_cons.mp hy with rfl | hy2
    · exact ⟨_, List.mem_cons_self _ _, h1⟩
    · obtain ⟨x, hx, hr⟩ := ih hy2
      exact ⟨x, List.mem_cons_of_mem _ hx, hr⟩

/-! ### Inversion lemmas for the configuration constructors -/

theorem contains_true_iff (l : List String) (a : String) : l.contains a = true ↔ a ∈ l := by
  simp

theorem contains_false_iff (l : List String) (a : String) : l.contains a = false ↔ a ∉ l := by
  constructor
  · intro hc hmem
    have ht := (contains_true_iff l a).mpr hmem
    rw [ht] at hc
    exact Bool.noConfusion hc
  · intro hn
    cases hc : l.contains a
    · rfl
    · exact absurd ((contains_true_iff l a).mp hc) hn

theorem get_default_cfg_ok_inv {dc d : Dict} (h : get_default_cfg dc = Except.ok d) :
    (∀ p ∈ dc, p.1 ∈ defaultKeys) ∧ d = updateDict default_defaults dc := by
  rw [get_default_cfg] at h
  by_cases hc : dc.any (fun p => !defaultKeys.contains p.1)
  · rw [if_pos hc] at h
    exact Except.noConfusion h
  · rw [if_neg hc] at h
    cases h
    refine ⟨?_, rfl⟩
    intro p hp
    have hc2 : dc.any (fun p => !defaultKeys.contains p.1) = false := Bool.eq_false_iff.mpr hc
    have h3 := List.any_eq_false.mp hc2 p hp
    have h4 : defaultKeys.contains p.1 = true := by
      cases hcontains : defaultKeys.contains p.1
      · rw [hcontains] at h3; simp at h3
      · rfl
    exact (contains_true_iff _ _).mp h4

theorem get_default_cfg_error_of_bad {dc : Dict} {p : String × CfgVal} (hp : p ∈ dc)
    (hbad : p.1 ∉ defaultKeys) : ∃ e, get_default_cfg dc = Except.error e := by
  rw [get_default_cfg]
  have hc : dc.any (fun p => !defaultKeys.contains p.1) = true := by
    rw [List.any_eq_true]
    refine ⟨p, hp, ?_⟩
    rw [(contains_false_iff _ _).mpr hbad]
    rfl
  rw [if_pos hc]
  exact ⟨_, rfl⟩

theorem get_column_config_ok_inv {defaults cfg rc : Dict}
    (h : get_column_config defaults cfg = Except.ok rc) :
    validate_column_config cfg = Except.ok () ∧ rc = updateDict defaults cfg := by
  rw [get_column_config] at h
  cases hv : validate_column_config cfg with
  | error e => rw [hv] at h; exact Except.noConfusion h
  | ok u => rw [hv] at h; cases h; exact ⟨by cases u; rfl, rfl⟩

theorem mkTransformer_ok_inv {headers : List String} {dc : Dict} {cc : List Dict}
    {t : KeyValueListTransformer} (h : mkTransformer headers dc cc = Except.ok t) :
    get_default_cfg dc = Except.ok t.defaults ∧
    mapE (get_column_config t.defaults) cc = Except.ok t.column_cfgs ∧
    t.headerindexmap = headerIndexMapOf headers ∧
    mapE (pairWithIndex (headerIndexMapOf headers)) t.column_cfgs = Except.ok t.output_configs := by
  rw [mkTransformer] at h
  split at h
  · exact Except.noConfusion h
  · rename_i defaults h1
    split at h
    · exact Except.noConfusion h
    · rename_i ccfgs h2
      split at h
      · exact Except.noConfusion h
      · rename_i ocfgs h3
        cases h
        exact ⟨h1, h2, rfl, h3⟩

theorem name_not_in_resolved_defaults {dc d : Dict} (h : get_default_cfg dc = Except.ok d) :
    "name" ∉ keysOf d := by
  obtain ⟨hsub, rfl⟩ := get_default_cfg_ok_inv h
  intro hmem
  rw [mem_keysOf_updateDict] at hmem
  rcases hmem with hbase | hdc
  · revert hbase; decide
  · rw [keysOf] at hdc
    obtain ⟨p, hp, hp1⟩ := List.mem_map.mp hdc
    have := hsub p hp
    rw [hp1] at this
    revert this; decide

theorem lookup_resolved_name {defaults c : Dict} (hdef : "name" ∉ keysOf defaults)
    (hnd : (keysOf c).Nodup) :
    lookupKey (updateDict defaults c) "name" = lookupKey c "name" := by
  cases hc : lookupKey c "name" with
  | none =>
    rw [lookupKey_updateDict_of_none _ _ _ hc]
    exact (lookupKey_eq_none_iff _ _).mpr hdef
  | some v => exact lookupKey_updateDict_of_some _ _ _ _ hnd hc

theorem pairWithIndex_ok_inv {hmap : List (String × Nat)} {c : Dict} {y : Dict × Nat}
    (h : pairWithIndex hmap c = Except.ok y) :
    ∃ n j, lookupKey c "name" = some (CfgVal.str n) ∧ lookupIdx hmap n = some j ∧
      y = (c, j) := by
  rw [pairWithIndex] at h
  split at h
  · rename_i n hn
    split at h
    · rename_i j hi
      cases h
      exact ⟨n, j, hn, hi, rfl⟩
    · exact Except.noConfusion h
  · exact Except.noConfusion h

/-! ### Shared helpers for the claim theorems -/

theorem colkeys_any_false {cfg : Dict} (hkeys : ∀ p ∈ cfg, p.1 = "name" ∨ p.1 ∈ optionalKeys) :
    cfg.any (fun p => !(optionalKeys.contains p.1 || p.1 == "name")) = false := by
  rw [List.any_eq_false]
  intro p hp
  rcases hkeys p hp with h | h
  · simp [h]
  · simp [h]

theorem forall2_pair_fst {hmap : List (String × Nat)} :
    ∀ {xs : List Dict} {ys : List (Dict × Nat)},
      List.Forall₂ (fun c y => pairWithIndex hmap c = Except.ok y) xs ys →
      ys.map Prod.fst = xs := by
  intro xs ys h
  induction h with
  | nil => rfl
  | cons h1 _ ih =>
    obtain ⟨n, j, _, _, rfl⟩ := pairWithIndex_ok_inv h1
    simp [ih]

/-! ### The claims -/

/-- C1, counterexample to the claim as stated: the claim reads the validation as
stripping exactly ONE occurrence of the `\{\{\s*value\s*\}\}` placeholder and
then rejecting iff a `\{\{[\s\w]*}\}` token remains.  On the configuration with
`clientvalue = "\{\{ value \}\}\{\{ value \}\}"` a single strip leaves the token
`"\{\{ value \}\}"`, so the claim predicts a `ConfigError`; the code's
`re.sub` strips ALL occurrences and accepts this configuration. -/
theorem C1_counterexample :
    validate_column_config
        [("name", CfgVal.str "x"),
         ("clientvalue", CfgVal.str "\x7b\x7b value \x7d\x7d\x7b\x7b value \x7d\x7d")]
      = Except.ok () ∧
    searchLeftover (subValueOnce "" "\x7b\x7b value \x7d\x7d\x7b\x7b value \x7d\x7d") = true := by
  exact ⟨rfl, rfl⟩

/-- C1, amended: for every column configuration with only recognised keys, a
truthy `name` and a string `clientvalue`, validation strips ALL occurrences of
the whitespace-tolerant `\{\{\s*value\s*\}\}` placeholder from the
`clientvalue` and then raises a configuration error if and only if a
`\{\{[\s\w]*}\}`-shaped token remains in the stripped string; in particular
`"\{\{ value \}\}"` and `"prefix-\{\{ value \}\}-suffix"` are accepted and
`"\{\{value\}\}-\{\{other\}\}"` is rejected. -/
theorem C1_amended :
    (∀ (cfg : Dict) (cv : String),
      lookupKey cfg "clientvalue" = some (CfgVal.str cv) →
      (∃ nv, lookupKey cfg "name" = some nv ∧ truthy nv = true) →
      (∀ p ∈ cfg, p.1 = "name" ∨ p.1 ∈ optionalKeys) →
      (validate_column_config cfg = Except.ok () ↔
        searchLeftover (subValueAll "" cv) = false)) ∧
    validate_column_config
        [("name", CfgVal.str "x"), ("clientvalue", CfgVal.str "\x7b\x7b value \x7d\x7d")]
      = Except.ok () ∧
    validate_column_config
        [("name", CfgVal.str "x"),
         ("clientvalue", CfgVal.str "prefix-\x7b\x7b value \x7d\x7d-suffix")]
      = Except.ok () ∧
    validate_column_config
        [("name", CfgVal.str "x"),
         ("clientvalue", CfgVal.str "\x7b\x7bvalue\x7d\x7d-\x7b\x7bother\x7d\x7d")]
      = Except.error "clientvalue template parameter not found" := by
  refine ⟨?_, rfl, rfl, rfl⟩
  intro cfg cv hcv hname hkeys
  obtain ⟨nv, hnv, htr⟩ := hname
  have hany := colkeys_any_false hkeys
  simp only [validate_column_config, hnv, htr, hany, Bool.not_true, Bool.false_eq_true,
    if_false, hcv]
  cases hrej : clientvalueRejected cv with
  | true =>
    rw [clientvalueRejected] at hrej
    simp [hrej]
  | false =>
    rw [clientvalueRejected] at hrej
    simp [hrej]

/-- C1, witness for the amended theorem: a concrete configuration whose
validation outcome matches the strip-all-then-search check. -/
theorem C1_witness :
    validate_column_config
        [("name", CfgVal.str "x"), ("clientvalue", CfgVal.str "v-\x7b\x7b value \x7d\x7d")]
      = Except.ok () ↔
    searchLeftover (subValueAll "" "v-\x7b\x7b value \x7d\x7d") = false := by
  exact C1_amended.1
    [("name", CfgVal.str "x"), ("clientvalue", CfgVal.str "v-\x7b\x7b value \x7d\x7d")]
    "v-\x7b\x7b value \x7d\x7d" rfl ⟨CfgVal.str "x", rfl, rfl⟩ (by decide)

/-- C2: over headers `["A", "B"]` with column configs renaming `A` to `alpha`
and splitting `B` on `";"`, the row `["1", "x;y"]` transforms to exactly
`[("alpha", ["1"]), ("B", ["x", "y"])]`; in general a successful `transform`
pairs off `output_configs` in order, and `output_configs` lists the resolved
column configs in the order the column configs were supplied (not in table
header order). -/
theorem C2_transform_order :
    runTransform ["A", "B"] []
        [[("name", CfgVal.str "A"), ("clientname", CfgVal.str "alpha")],
         [("name", CfgVal.str "B"), ("split", CfgVal.str ";")]]
        ["1", "x;y"]
      = Except.ok [("alpha", ["1"]), ("B", ["x", "y"])] ∧
    (∀ (t : KeyValueListTransformer) (row : List String) (out : List (String × List String)),
      t.transform row = Except.ok out →
      List.Forall₂ (fun ci p => cellTransform row ci = Except.ok p) t.output_configs out) ∧
    (∀ (headers : List String) (dc : Dict) (cc : List Dict) (t : KeyValueListTransformer),
      mkTransformer headers dc cc = Except.ok t →
      t.output_configs.map Prod.fst = t.column_cfgs) := by
  refine ⟨rfl, ?_, ?_⟩
  · intro t row out h
    rw [KeyValueListTransformer.transform] at h
    by_cases hlen : row.length = t.headerindexmap.length
    · rw [if_pos hlen] at h
      exact mapE_ok_forall2 h
    · rw [if_neg hlen] at h
      exact Except.noConfusion h
  · intro headers dc cc t h
    obtain ⟨_, _, _, h4⟩ := mkTransformer_ok_inv h
    exact forall2_pair_fst (mapE_ok_forall2 h4)

/-- C2, witness: the order theorem applied to the concrete one-column
transformer. -/
theorem C2_witness :
    List.Forall₂ (fun ci p => cellTransform ["1"] ci = Except.ok p)
      egT.output_configs [("A", ["1"])] := by
  exact C2_transform_order.2.1 egT ["1"] [("A", ["1"])] rfl

/-- C3: resolving a default configuration whose keys are all among the six
recognised options succeeds with a mapping containing all six keys in which
caller-supplied values override the base defaults; a raw mapping with any
unrecognised key raises a configuration error. -/
theorem C3_get_default_cfg :
    ∀ cfg : Dict, (keysOf cfg).Nodup →
      ((∀ p ∈ cfg, p.1 ∈ defaultKeys) →
        ∃ d, get_default_cfg cfg = Except.ok d ∧
          (∀ k ∈ defaultKeys, ∃ v, lookupKey d k = some v) ∧
          (∀ k v, lookupKey cfg k = some v → lookupKey d k = some v) ∧
          (∀ k, lookupKey cfg k = none → lookupKey d k = lookupKey default_defaults k)) ∧
      ((∃ p ∈ cfg, p.1 ∉ defaultKeys) → ∃ e, get_default_cfg cfg = Except.error e) := by
  intro cfg hnd
  constructor
  · intro hsub
    have hany : cfg.any (fun p => !defaultKeys.contains p.1) = false := by
      rw [List.any_eq_false]
      intro p hp
      simp [hsub p hp]
    refine ⟨updateDict default_defaults cfg, by rw [get_default_cfg, hany]; rfl, ?_, ?_, ?_⟩
    · intro k hk
      cases hcv : lookupKey cfg k with
      | some v => exact ⟨v, lookupKey_updateDict_of_some _ _ _ _ hnd hcv⟩
      | none =>
        rw [lookupKey_updateDict_of_none _ _ _ hcv]
        fin_cases hk <;> exact ⟨_, rfl⟩
    · intro k v hcv
      exact lookupKey_updateDict_of_some _ _ _ _ hnd hcv
    · intro k hcv
      exact lookupKey_updateDict_of_none _ _ _ hcv
  · rintro ⟨p, hp, hbad⟩
    exact get_default_cfg_error_of_bad hp hbad

/-- C3, witness: resolving `{split: ";"}` keeps the override and fills in the
other five defaults. -/
theorem C3_witness :
    ∃ d, get_default_cfg [("split", CfgVal.str ";")] = Except.ok d ∧
      (∀ k ∈ defaultKeys, ∃ v, lookupKey d k = some v) ∧
      (∀ k v, lookupKey [("split", CfgVal.str ";")] k = some v → lookupKey d k = some v) ∧
      (∀ k, lookupKey [("split", CfgVal.str ";")] k = none →
        lookupKey d k = lookupKey default_defaults k) := by
  exact (C3_get_default_cfg [("split", CfgVal.str ";")] (by decide)).1 (by decide)

/-- C4: column-config validation fails when `name` is missing, when `name` is
present but falsy, or when any key lies outside the recognised set; it succeeds
for every configuration with a truthy `name`, only recognised keys, and a
well-formed `clientvalue` when one is present. -/
theorem C4_validate_column_config :
    ∀ cfg : Dict,
      (lookupKey cfg "name" = none → ∃ e, validate_column_config cfg = Except.error e) ∧
      (∀ nv, lookupKey cfg "name" = some nv → truthy nv = false →
        ∃ e, validate_column_config cfg = Except.error e) ∧
      ((∃ p, p ∈ cfg ∧ p.1 ≠ "name" ∧ p.1 ∉ optionalKeys) →
        ∃ e, validate_column_config cfg = Except.error e) ∧
      ((∃ nv, lookupKey cfg "name" = some nv ∧ truthy nv = true) →
       (∀ p ∈ cfg, p.1 = "name" ∨ p.1 ∈ optionalKeys) →
       (match lookupKey cfg "clientvalue" with
        | none => True
        | some (CfgVal.str cv) => clientvalueRejected cv = false
        | some _ => False) →
       validate_column_config cfg = Except.ok ()) := by
  intro cfg
  refine ⟨?_, ?_, ?_, ?_⟩
  · intro h
    refine ⟨"Required key(s) missing from column configuration: name", ?_⟩
    simp [validate_column_config, h]
  · intro nv h hfalse
    refine ⟨"Empty name in column configuration", ?_⟩
    simp [validate_column_config, h, hfalse]
  · rintro ⟨p, hp, hname, hbad⟩
    cases hnv : lookupKey cfg "name" with
    | none =>
      refine ⟨"Required key(s) missing from column configuration: name", ?_⟩
      simp [validate_column_config, hnv]
    | some nv =>
      cases htr : truthy nv with
      | false =>
        refine ⟨"Empty name in column configuration", ?_⟩
        simp [validate_column_config, hnv, htr]
      | true =>
        have hany : cfg.any (fun p => !(optionalKeys.contains p.1 || p.1 == "name")) = true := by
          rw [List.any_eq_true]
          refine ⟨p, hp, ?_⟩
          simp [hbad, hname]
        refine ⟨"Invalid key(s) in column configuration", ?_⟩
        simp only [validate_column_config, hnv, htr, Bool.not_true, hany]
        simp
  · rintro ⟨nv, hnv, htr⟩ hkeys hcvok
    have hany := colkeys_any_false hkeys
    cases hcv : lookupKey cfg "clientvalue" with
    | none =>
      simp only [validate_column_config, hnv, htr, Bool.not_true, hany, hcv]
      simp
    | some v =>
      rw [hcv] at hcvok
      cases v with
      | str cv =>
        have hrej : clientvalueRejected cv = false := hcvok
        simp only [validate_column_config, hnv, htr, Bool.not_true, hany, hcv, hrej]
        simp
      | bool b => exact hcvok.elim
      | nat m => exact hcvok.elim

/-- C4, witness: a minimal configuration with just a non-empty name validates. -/
theorem C4_witness :
    validate_column_config [("name", CfgVal.str "gene")] = Except.ok () := by
  exact (C4_validate_column_config [("name", CfgVal.str "gene")]).2.2.2
    ⟨CfgVal.str "gene", rfl, rfl⟩ (by decide) trivial

/-- C5: with `split = ","` and the identity template `clientvalue =
"\{\{ value \}\}"` resolved over the base defaults, `transform1 "a, b ,c"`
splits on the comma, strips whitespace from every piece, substitutes each piece
into the template unchanged, and returns the config's name as key. -/
theorem C5_transform1_split :
    ∀ n : String,
      transform1 "a, b ,c"
          (updateDict default_defaults
            [("name", CfgVal.str n), ("split", CfgVal.str ","),
             ("clientvalue", CfgVal.str "\x7b\x7b value \x7d\x7d")])
        = Except.ok (n, ["a", "b", "c"]) := by
  intro n
  rfl

/-- C6: the output key of `transform1` is the config's `name`, replaced by
`clientname` when present, then prefixed with `__` when `visible` is present
and false — including the combined case showing the prefix applies after the
rename. -/
theorem C6_transform1_key :
    ∀ v : String,
      transform1 v [("name", CfgVal.str "x"), ("visible", CfgVal.bool false)]
        = Except.ok ("__x", [v]) ∧
      transform1 v [("name", CfgVal.str "x"), ("clientname", CfgVal.str "y")]
        = Except.ok ("y", [v]) ∧
      transform1 v [("name", CfgVal.str "x"), ("clientname", CfgVal.str "y"),
          ("visible", CfgVal.bool false)]
        = Except.ok ("__y", [v]) := by
  intro v
  exact ⟨rfl, rfl, rfl⟩

/-- C9: the pass-through transformer maps a row of matching length to the
header/value pairs in header order with all values unchanged; in particular
`["A", "B"]` with `["1", "2"]` yields `[("A", "1"), ("B", "2")]`. -/
theorem C9_passthrough :
    (∀ headers row : List String, row.length = headers.length →
      passThroughRow headers row = Except.ok (headers.zip row) ∧
      (headers.zip row).map Prod.fst = headers ∧
      (headers.zip row).map Prod.snd = row) ∧
    passThroughRow ["A", "B"] ["1", "2"] = Except.ok [("A", "1"), ("B", "2")] := by
  constructor
  · intro headers row hlen
    refine ⟨by simp [passThroughRow, hlen], ?_, ?_⟩
    · exact List.map_fst_zip _ _ (le_of_eq hlen.symm)
    · exact List.map_snd_zip _ _ (le_of_eq hlen)
  · rfl

/-- C9, witness: the general pass-through law at a concrete header/row pair. -/
theorem C9_witness :
    passThroughRow ["A"] ["x"] = Except.ok (["A"].zip ["x"]) ∧
    (["A"].zip ["x"]).map Prod.fst = ["A"] ∧
    (["A"].zip ["x"]).map Prod.snd = ["x"] := by
  exact C9_passthrough.1 ["A"] ["x"] rfl

theorem lookupIdx_headerIndexMapOf_spec {headers : List String} {h : String} {j : Nat}
    (hlk : lookupIdx (headerIndexMapOf headers) h = some j) :
    headers.get? j = some h ∧ ∀ m, j < m → headers.get? m ≠ some h := by
  cases hl : lastIdxFrom 0 headers h with
  | none =>
    have hn := buildHmap_lookup_of_none h headers 0 [] hl
    rw [headerIndexMapOf] at hlk
    rw [hn] at hlk
    exact Option.noConfusion hlk
  | some j2 =>
    have hs := buildHmap_lookup_of_some h j2 headers 0 [] hl
    rw [headerIndexMapOf] at hlk
    rw [hs] at hlk
    cases hlk
    obtain ⟨m, hm0, hget, hlast⟩ := lastIdxFrom_spec h j headers 0 hl
    have hmj : j = m := by omega
    rw [hmj]
    exact ⟨hget, fun m2 hm2 => hlast m2 (by omega)⟩

/-- C7: a row whose length differs from the header count makes both the row
transformer's `transform` and the pass-through transformer's per-row transform
raise the assertion error (no truncation or padding); a row of matching length
passes the precondition check and proceeds to the per-column transforms
(respectively to the header/value zip). -/
theorem C7_row_length_precondition :
    (∀ (headers : List String) (dc : Dict) (cc : List Dict) (t : KeyValueListTransformer)
        (row : List String),
      mkTransformer headers dc cc = Except.ok t → headers.Nodup →
      ((row.length ≠ headers.length → t.transform row = Except.error "AssertionError") ∧
       (row.length = headers.length →
         t.transform row = mapE (cellTransform row) t.output_configs))) ∧
    (∀ headers row : List String,
      (row.length ≠ headers.length → passThroughRow headers row = Except.error "AssertionError") ∧
      (row.length = headers.length → passThroughRow headers row = Except.ok (headers.zip row))) := by
  constructor
  · intro headers dc cc t row hmk hnd
    obtain ⟨_, _, h3, _⟩ := mkTransformer_ok_inv hmk
    have hlen : t.headerindexmap.length = headers.length := by
      rw [h3, length_headerIndexMapOf, List.Nodup.dedup hnd]
    constructor
    · intro hne
      rw [KeyValueListTransformer.transform, if_neg (by rw [hlen]; exact hne)]
    · intro heq
      rw [KeyValueListTransformer.transform, if_pos (by rw [hlen]; exact heq)]
  · intro headers row
    constructor
    · intro hne
      rw [passThroughRow, if_neg hne]
    · intro heq
      rw [passThroughRow, if_pos heq]

/-- C7, witness: a too-short row fails the assertion for both transformers. -/
theorem C7_witness :
    egT.transform ([] : List String) = Except.error "AssertionError" ∧
    passThroughRow ["A", "B"] ["1"] = Except.error "AssertionError" := by
  constructor
  · exact (C7_row_length_precondition.1 ["A"] [] [[("name", CfgVal.str "A")]] egT []
      rfl (by decide)).1 (by decide)
  · exact (C7_row_length_precondition.2 ["A", "B"] ["1"]).1 (by decide)

/-- C8: constructing the row transformer fails whenever some column config's
`name` matches no supplied header (the `KeyError` from the index-map lookup
propagates), and on success every output config is paired with the index of a
matching header; no transformer value exists in a partially valid state. -/
theorem C8_construction :
    ∀ (headers : List String) (dc : Dict) (cc : List Dict),
      ((∃ c, c ∈ cc ∧ (keysOf c).Nodup ∧
          ∃ n, lookupKey c "name" = some (CfgVal.str n) ∧ n ∉ headers) →
        ∃ e, mkTransformer headers dc cc = Except.error e) ∧
      (∀ t, mkTransformer headers dc cc = Except.ok t →
        ∀ p ∈ t.output_configs,
          ∃ n, lookupKey p.1 "name" = some (CfgVal.str n) ∧ headers.get? p.2 = some n) := by
  intro headers dc cc
  constructor
  · rintro ⟨c, hc, hcnd, n, hn, hnh⟩
    cases hmk : mkTransformer headers dc cc with
    | error e => exact ⟨e, rfl⟩
    | ok t =>
      exfalso
      obtain ⟨h1, h2, _, h4⟩ := mkTransformer_ok_inv hmk
      obtain ⟨rc, hrc_mem, hrc⟩ := forall2_mem_left (mapE_ok_forall2 h2) hc
      obtain ⟨_, hrc_eq⟩ := get_column_config_ok_inv hrc
      have hdefname : "name" ∉ keysOf t.defaults := name_not_in_resolved_defaults h1
      have hname_rc : lookupKey rc "name" = some (CfgVal.str n) := by
        rw [hrc_eq, lookup_resolved_name hdefname hcnd, hn]
      obtain ⟨y, _, hy⟩ := forall2_mem_left (mapE_ok_forall2 h4) hrc_mem
      obtain ⟨n2, j, hn2, hj, _⟩ := pairWithIndex_ok_inv hy
      rw [hname_rc] at hn2
      have hstr : CfgVal.str n = CfgVal.str n2 := Option.some.inj hn2
      have hnn : n = n2 := by injection hstr
      subst hnn
      have hmem : n ∈ (headerIndexMapOf headers).map Prod.fst := by
        by_contra hnm
        have hnone := (lookupIdx_eq_none_iff n (headerIndexMapOf headers)).mpr hnm
        rw [hnone] at hj
        exact Option.noConfusion hj
      exact hnh ((mem_fst_headerIndexMapOf n headers).mp hmem)
  · intro t hmk p hp
    obtain ⟨_, _, _, h4⟩ := mkTransformer_ok_inv hmk
    obtain ⟨c, _, hy⟩ := forall2_mem_right (mapE_ok_forall2 h4) hp
    obtain ⟨n, j, hn, hj, rfl⟩ := pairWithIndex_ok_inv hy
    exact ⟨n, hn, (lookupIdx_headerIndexMapOf_spec hj).1⟩

/-- C8, witness: a column config named `B` over headers `["A"]` aborts
construction. -/
theorem C8_witness :
    ∃ e, mkTransformer ["A"] [] [[("name", CfgVal.str "B")]] = Except.error e := by
  exact (C8_construction ["A"] [] [[("name", CfgVal.str "B")]]).1
    ⟨[("name", CfgVal.str "B")], by decide, by decide, "B", rfl, by decide⟩

/-- C10 (implicit): with duplicate headers, the header index map keeps one
entry per distinct header carrying the LAST occurrence's index, so the
transform precondition compares the row length against the number of distinct
headers, and a row as long as the full header list fails the assertion. -/
theorem C10_duplicate_headers :
    ∀ headers : List String,
      ((headerIndexMapOf headers).length = headers.dedup.length) ∧
      (∀ h, h ∈ (headerIndexMapOf headers).map Prod.fst ↔ h ∈ headers) ∧
      (∀ h j, lookupIdx (headerIndexMapOf headers) h = some j →
        headers.get? j = some h ∧ ∀ m, j < m → headers.get? m ≠ some h) ∧
      (¬ headers.Nodup →
        ((headerIndexMapOf headers).length < headers.length ∧
         ∀ (dc : Dict) (cc : List Dict) (t : KeyValueListTransformer) (row : List String),
           mkTransformer headers dc cc = Except.ok t → row.length = headers.length →
           t.transform row = Except.error "AssertionError")) := by
  intro headers
  refine ⟨length_headerIndexMapOf headers, fun h => mem_fst_headerIndexMapOf h headers, ?_, ?_⟩
  · intro h j hlk
    exact lookupIdx_headerIndexMapOf_spec hlk
  · intro hnd
    have hlt : (headerIndexMapOf headers).length < headers.length := by
      rw [length_headerIndexMapOf]
      exact dedup_length_lt_of_not_nodup hnd
    refine ⟨hlt, ?_⟩
    intro dc cc t row hmk hrow
    obtain ⟨_, _, h3, _⟩ := mkTransformer_ok_inv hmk
    rw [KeyValueListTransformer.transform, if_neg]
    rw [h3, hrow]
    omega

/-- C10, witness: over headers `["A", "A"]` the full-length row `["1", "2"]`
fails the assertion. -/
theorem C10_witness :
    egT2.transform ["1", "2"] = Except.error "AssertionError" := by
  exact ((C10_duplicate_headers ["A", "A"]).2.2.2 (by decide)).2 []
    [[("name", CfgVal.str "A")]] egT2 ["1", "2"] rfl rfl

end MetadataUtils
